import Mathlib

/-!
Shallow embedding of the non-maximum-suppression implementation in
src/non_max_supression.py.  Machine floats are modelled as rationals,
Python lists as Lean lists, and the in-place while loop of compute_nms
as a fuel-indexed recursion: the fuel is the initial length of the
index list, which the loop can never exhaust since every iteration
removes at least one index.  Python's sorted is a stable ascending
sort, modelled by insertion sort (extensionally the unique stable sort
for a total comparison).  Out-of-range Python indexing raises; it is
modelled by Option results where reachable (processLine) and by getD
with a default where every index used is in range (the NMS loop).
-/

namespace NMS

/-- Raw input record (x, y, width, height, score): the width/height form
used in the input file and, after the final conversion on lines 221-222,
in the output of compute_nms. -/
structure Raw where
  x : ℚ
  y : ℚ
  w : ℚ
  h : ℚ
  score : ℚ
  deriving DecidableEq, Repr

/-- Corner-form box (x1, y1, x2, y2, score) as stored in self.data after
get_data's conversion on lines 61-62. -/
structure Box where
  x1 : ℚ
  y1 : ℚ
  x2 : ℚ
  y2 : ℚ
  score : ℚ
  deriving DecidableEq, Repr

/-- Default used with List.getD; every index the suppression loop looks up
is in range, so this value is never actually produced. -/
def dbox : Box := ⟨0, 0, 0, 0, 0⟩

/-- Ingestion conversion of lines 61-62: x2 = x + w, y2 = y + h. -/
def toCorner (r : Raw) : Box :=
  ⟨r.x, r.y, r.x + r.w, r.y + r.h, r.score⟩

/-- Output conversion of lines 221-222: w = x2 - x1, h = y2 - y1. -/
def toRaw (b : Box) : Raw :=
  ⟨b.x1, b.y1, b.x2 - b.x1, b.y2 - b.y1, b.score⟩

/-- Validity test of line 55, for field value v at position i:
v < 0, or (i = 2 or i = 3) and v ≤ 0, or i = 4 and v > 1. -/
def badField (i : ℕ) (v : ℚ) : Bool :=
  decide (v < 0) || ((decide (i = 2) || decide (i = 3)) && decide (v ≤ 0))
    || (decide (i = 4) && decide (1 < v))

/-- Lines 48-57: the loop `for f, i in zip(l, range(len(l)))` builds l_clean
by appending every field that does not trip the check; `continue` skips
only the offending field, not the whole line. -/
def cleanLine (l : List ℚ) : List ℚ :=
  ((l.enum.filter fun p => ! badField p.1 p.2).map Prod.snd)

/-- Lines 61-64 applied to one line: l_clean[2] += l_clean[0] and
l_clean[3] += l_clean[1], then the line is appended to self.data.
Python raises IndexError when l_clean has fewer than 4 entries, modelled
by none. -/
def processLine (l : List ℚ) : Option (List ℚ) :=
  let lc := cleanLine l
  if 4 ≤ lc.length then
    some ((lc.set 2 (lc.getD 2 0 + lc.getD 0 0)).set 3 (lc.getD 3 0 + lc.getD 1 0))
  else
    none

/-- get_data (lines 38-67) on already-split numeric lines: every line is
processed in order; an IndexError on any line aborts the whole call. -/
def get_data (lines : List (List ℚ)) : Option (List (List ℚ)) :=
  lines.mapM processLine

/-- get_iou (lines 112-144). -/
def get_iou (b1 b2 : Box) : ℚ :=
  let x1 := max b1.x1 b2.x1
  let y1 := max b1.y1 b2.y1
  let x2 := min b1.x2 b2.x2
  let y2 := min b1.y2 b2.y2
  let width := x2 - x1
  let height := y2 - y1
  if width < 0 ∨ height < 0 then 0
  else
    let area_intersect := width * height
    let area_b1 := (b1.x2 - b1.x1) * (b1.y2 - b1.y1)
    let area_b2 := (b2.x2 - b2.x1) * (b2.y2 - b2.y1)
    let total_area := area_b1 + area_b2 - area_intersect
    area_intersect / (total_area + 1 / 100000)

/-- Comparison used by the sort on line 192 (key = row[-1], the score). -/
def scoreLe (a b : Box) : Prop := a.score ≤ b.score

instance : DecidableRel scoreLe := fun a b =>
  inferInstanceAs (Decidable (a.score ≤ b.score))

instance : IsTotal Box scoreLe := ⟨fun a b => le_total a.score b.score⟩

instance : IsTrans Box scoreLe := ⟨fun _ _ _ hab hbc => le_trans hab hbc⟩

/-- Line 192: sorted(self.data, key=lambda x: x[-1]); Python's sorted is
stable, so insertion sort with a total comparison models it exactly. -/
def sortByScore (l : List Box) : List Box := l.insertionSort scoreLe

/-- Lines 209-214: of the remaining indices other than the accepted one,
keep exactly those whose IoU with the accepted box is not above the
threshold (np.delete at positions where ious > iou_threshold). -/
def keepStep (data : List Box) (t : ℚ) (best : ℕ) (rest : List ℕ) : List ℕ :=
  rest.filter fun i => decide (get_iou (data.getD best dbox) (data.getD i dbox) ≤ t)

/-- Lines 200-216: the while loop over the remaining index list.  Each
iteration accepts the last (highest-score) remaining index, then filters
the rest with keepStep.  Fuel bounds the iteration count; the callers
pass the initial list length, which suffices because every iteration
shortens the list by at least one. -/
def nmsLoop (data : List Box) (t : ℚ) : ℕ → List ℕ → List ℕ
  | 0, _ => []
  | fuel + 1, remaining =>
    if h : remaining = [] then []
    else
      remaining.getLast h ::
        nmsLoop data t fuel (keepStep data t (remaining.getLast h) remaining.dropLast)

/-- Line 219: sortedby_confidence_data[res], the accepted boxes in
acceptance order, still in corner form. -/
def acceptedBoxes (data : List Box) (t : ℚ) : List Box :=
  let sorted := sortByScore data
  (nmsLoop sorted t sorted.length (List.range sorted.length)).map fun i => sorted.getD i dbox

/-- compute_nms (lines 186-222): early return [] on empty data, otherwise
the accepted boxes converted back to width/height form. -/
def compute_nms (data : List Box) (t : ℚ) : List Raw :=
  if data.isEmpty then [] else (acceptedBoxes data t).map toRaw

/-- Spec-level suppress: ingestion conversion to corner form, then
compute_nms (which itself ends with the conversion back to raw form). -/
def suppress (X : List Raw) (t : ℚ) : List Raw :=
  compute_nms (X.map toCorner) t

/-! Helper lemmas about the conversions, the IoU and the sort. -/

theorem toRaw_toCorner (r : Raw) : toRaw (toCorner r) = r := by
  cases r
  simp [toRaw, toCorner]

theorem toCorner_toRaw (b : Box) : toCorner (toRaw b) = b := by
  cases b
  simp [toRaw, toCorner]

theorem score_toCorner (r : Raw) : (toCorner r).score = r.score := rfl

theorem score_toRaw (b : Box) : (toRaw b).score = b.score := rfl

theorem get_iou_comm (b1 b2 : Box) : get_iou b1 b2 = get_iou b2 b1 := by
  simp only [get_iou, max_comm b2.x1 b1.x1, max_comm b2.y1 b1.y1, min_comm b2.x2 b1.x2,
    min_comm b2.y2 b1.y2]
  split_ifs with h
  · rfl
  · ring_nf

theorem sortByScore_sorted (l : List Box) : (sortByScore l).Pairwise scoreLe :=
  List.sorted_insertionSort scoreLe l

theorem sortByScore_perm (l : List Box) : List.Perm (sortByScore l) l :=
  List.perm_insertionSort scoreLe l

theorem sortByScore_length (l : List Box) : (sortByScore l).length = l.length :=
  (sortByScore_perm l).length_eq

theorem orderedInsert_append_last (x : Box) (l : List Box)
    (hall : ∀ y ∈ l, ¬ scoreLe x y) : l.orderedInsert scoreLe x = l ++ [x] := by
  induction l with
  | nil => rfl
  | cons y ys ih =>
    rw [List.orderedInsert, if_neg (hall y (List.mem_cons_self y ys))]
    simp [ih fun z hz => hall z (List.mem_cons_of_mem y hz)]

theorem sortByScore_of_strict_desc (l : List Box)
    (hd : l.Pairwise fun a b => b.score < a.score) : sortByScore l = l.reverse := by
  induction l with
  | nil => rfl
  | cons x xs ih =>
    rw [List.pairwise_cons] at hd
    show (sortByScore xs).orderedInsert scoreLe x = (x :: xs).reverse
    rw [ih hd.2, List.reverse_cons]
    refine orderedInsert_append_last x xs.reverse fun y hy => ?_
    exact not_le_of_lt (hd.1 y (List.mem_reverse.mp hy))

theorem filter_score_orderedInsert (s : ℚ) (x : Box) (l : List Box) :
    ((l.orderedInsert scoreLe x).filter fun b => decide (b.score = s)) =
      if x.score = s then x :: l.filter (fun b => decide (b.score = s))
      else l.filter fun b => decide (b.score = s) := by
  induction l with
  | nil =>
    simp only [List.orderedInsert, List.filter]
    split_ifs with h <;> simp [h]
  | cons y ys ih =>
    rw [List.orderedInsert]
    by_cases hle : scoreLe x y
    · rw [if_pos hle]
      by_cases hx : x.score = s
      · simp [List.filter_cons, hx]
      · simp [List.filter_cons, hx]
    · rw [if_neg hle]
      have hylt : y.score < x.score := lt_of_not_le hle
      by_cases hx : x.score = s
      · have hy : ¬ y.score = s := by
          intro hcon
          exact absurd (hx ▸ hcon ▸ hylt) (lt_irrefl _)
        simp [List.filter_cons, hy, ih, hx]
      · simp [List.filter_cons, ih, hx]

theorem sortByScore_filter_score (l : List Box) (s : ℚ) :
    ((sortByScore l).filter fun b => decide (b.score = s)) =
      l.filter fun b => decide (b.score = s) := by
  induction l with
  | nil => rfl
  | cons x xs ih =>
    show ((sortByScore xs).orderedInsert scoreLe x).filter _ = _
    rw [filter_score_orderedInsert]
    by_cases h : x.score = s
    · simp [List.filter_cons, h, ih]
    · simp [List.filter_cons, h, ih]

/-! Helper lemmas about the suppression loop. -/

theorem keepStep_subset (data : List Box) (t : ℚ) (best : ℕ) (rest : List ℕ) :
    ∀ i ∈ keepStep data t best rest, i ∈ rest := fun _ hi =>
  List.filter_sublist rest |>.subset hi

theorem keepStep_iou_le (data : List Box) (t : ℚ) (best : ℕ) (rest : List ℕ) :
    ∀ i ∈ keepStep data t best rest,
      get_iou (data.getD best dbox) (data.getD i dbox) ≤ t := fun i hi => by
  have := List.of_mem_filter hi
  exact of_decide_eq_true this

theorem keepStep_pairwise {R : ℕ → ℕ → Prop} {rest : List ℕ}
    (h : rest.Pairwise R) (data : List Box) (t : ℚ) (best : ℕ) :
    (keepStep data t best rest).Pairwise R :=
  h.filter _

theorem keepStep_eq_self (data : List Box) (t : ℚ) (best : ℕ) (rest : List ℕ)
    (h : ∀ i ∈ rest, get_iou (data.getD best dbox) (data.getD i dbox) ≤ t) :
    keepStep data t best rest = rest :=
  List.filter_eq_self.mpr fun i hi => decide_eq_true (h i hi)

theorem nmsLoop_subset (data : List Box) (t : ℚ) :
    ∀ (fuel : ℕ) (remaining : List ℕ), ∀ i ∈ nmsLoop data t fuel remaining, i ∈ remaining := by
  intro fuel
  induction fuel with
  | zero => intro remaining i hi; cases hi
  | succ n ih =>
    intro remaining i hi
    rw [nmsLoop] at hi
    by_cases h : remaining = []
    · rw [dif_pos h] at hi; cases hi
    · rw [dif_neg h] at hi
      rcases List.mem_cons.mp hi with rfl | hmem
      · exact List.getLast_mem h
      · have h1 := ih _ i hmem
        have h2 := keepStep_subset _ _ _ _ i h1
        exact List.dropLast_sublist remaining |>.subset h2

theorem nmsLoop_pairwise_gt (data : List Box) (t : ℚ) :
    ∀ (fuel : ℕ) (remaining : List ℕ), remaining.Pairwise (· < ·) →
      (nmsLoop data t fuel remaining).Pairwise (· > ·) := by
  intro fuel
  induction fuel with
  | zero => intro remaining _; exact List.Pairwise.nil
  | succ n ih =>
    intro remaining hasc
    rw [nmsLoop]
    by_cases h : remaining = []
    · rw [dif_pos h]; exact List.Pairwise.nil
    · rw [dif_neg h]
      have hdecomp := List.dropLast_append_getLast h
      have hasc2 : (remaining.dropLast ++ [remaining.getLast h]).Pairwise (· < ·) := by
        rw [hdecomp]; exact hasc
      rw [List.pairwise_append] at hasc2
      have hlt : ∀ i ∈ remaining.dropLast, i < remaining.getLast h := fun i hi =>
        hasc2.2.2 i hi _ (List.mem_singleton_self _)
      refine List.pairwise_cons.mpr ⟨?_, ?_⟩
      · intro j hj
        have h1 := nmsLoop_subset data t n _ j hj
        exact hlt j (keepStep_subset _ _ _ _ j h1)
      · exact ih _ (keepStep_pairwise (hasc2.1) data t _)

theorem nmsLoop_pairwise_iou (data : List Box) (t : ℚ) :
    ∀ (fuel : ℕ) (remaining : List ℕ),
      (nmsLoop data t fuel remaining).Pairwise
        (fun i j => get_iou (data.getD i dbox) (data.getD j dbox) ≤ t) := by
  intro fuel
  induction fuel with
  | zero => intro remaining; exact List.Pairwise.nil
  | succ n ih =>
    intro remaining
    rw [nmsLoop]
    by_cases h : remaining = []
    · rw [dif_pos h]; exact List.Pairwise.nil
    · rw [dif_neg h]
      refine List.pairwise_cons.mpr ⟨?_, ih _⟩
      intro j hj
      have h1 := nmsLoop_subset data t n _ j hj
      exact keepStep_iou_le _ _ _ _ j h1

theorem nmsLoop_eq_reverse (data : List Box) (t : ℚ) :
    ∀ (fuel : ℕ) (remaining : List ℕ), remaining.Nodup →
      (∀ i ∈ remaining, ∀ j ∈ remaining, i ≠ j →
        get_iou (data.getD i dbox) (data.getD j dbox) ≤ t) →
      remaining.length ≤ fuel → nmsLoop data t fuel remaining = remaining.reverse := by
  intro fuel
  induction fuel with
  | zero =>
    intro remaining _ _ hlen
    rw [Nat.le_zero] at hlen
    rw [List.length_eq_zero] at hlen
    subst hlen
    rfl
  | succ n ih =>
    intro remaining hnd hiou hlen
    rw [nmsLoop]
    by_cases h : remaining = []
    · rw [dif_pos h, h]; rfl
    · rw [dif_neg h]
      have hdecomp := List.dropLast_append_getLast h
      have hnd2 : (remaining.dropLast ++ [remaining.getLast h]).Nodup := by
        rw [hdecomp]; exact hnd
      rw [List.nodup_append] at hnd2
      have hnotmem : remaining.getLast h ∉ remaining.dropLast := fun hmem =>
        hnd2.2.2 hmem (List.mem_singleton_self _)
      have hsub : ∀ i ∈ remaining.dropLast, i ∈ remaining := fun i hi =>
        List.dropLast_sublist remaining |>.subset hi
      have hkeep : keepStep data t (remaining.getLast h) remaining.dropLast =
          remaining.dropLast := by
        refine keepStep_eq_self _ _ _ _ fun i hi => ?_
        have hne : remaining.getLast h ≠ i := fun hcon => hnotmem (hcon ▸ hi)
        exact hiou _ (List.getLast_mem h) i (hsub i hi) hne
      rw [hkeep]
      have hlen2 : remaining.dropLast.length ≤ n := by
        have := List.length_dropLast remaining
        have hpos : 0 < remaining.length := List.length_pos.mpr h
        omega
      rw [ih remaining.dropLast (hnd.sublist (List.dropLast_sublist remaining))
        (fun i hi j hj hne => hiou i (hsub i hi) j (hsub j hj) hne) hlen2]
      conv_rhs => rw [← hdecomp]
      rw [List.reverse_append]
      rfl

/-! Helper lemmas about acceptedBoxes and compute_nms. -/

theorem pairwise_map_getD {R : Box → Box → Prop} {l : List Box} {idxs : List ℕ}
    (hrev : l.Pairwise fun a b => R b a) (hb : ∀ i ∈ idxs, i < l.length)
    (hgt : idxs.Pairwise (· > ·)) :
    (idxs.map fun i => l.getD i dbox).Pairwise R := by
  rw [List.pairwise_map]
  refine List.Pairwise.imp_of_mem ?_ hgt
  intro i j hi hj hij
  have hbi : i < l.length := hb i hi
  have hbj : j < l.length := hb j hj
  rw [List.getD_eq_get l dbox hbi, List.getD_eq_get l dbox hbj]
  exact List.pairwise_iff_get.mp hrev ⟨j, hbj⟩ ⟨i, hbi⟩ hij

theorem map_getD_range (l : List Box) :
    ((List.range l.length).map fun i => l.getD i dbox) = l := by
  refine List.ext_get (by simp) ?_
  intro n h1 h2
  simp only [List.get_map, List.get_range]
  exact List.getD_eq_get l dbox h2

theorem compute_nms_eq_map (data : List Box) (t : ℚ) :
    compute_nms data t = (acceptedBoxes data t).map toRaw := by
  rw [compute_nms]
  by_cases h : data.isEmpty
  · rw [if_pos h]
    rw [List.isEmpty_iff] at h
    subst h
    rfl
  · rw [if_neg h]

theorem acceptedBoxes_index_bound (data : List Box) (t : ℚ) :
    ∀ i ∈ nmsLoop (sortByScore data) t (sortByScore data).length
      (List.range (sortByScore data).length), i < (sortByScore data).length := fun i hi => by
  have := nmsLoop_subset (sortByScore data) t _ _ i hi
  exact List.mem_range.mp this

theorem acceptedBoxes_mem (data : List Box) (t : ℚ) :
    ∀ b ∈ acceptedBoxes data t, b ∈ data := by
  intro b hb
  rw [acceptedBoxes, List.mem_map] at hb
  obtain ⟨i, hi, rfl⟩ := hb
  have hlt := acceptedBoxes_index_bound data t i hi
  rw [List.getD_eq_get _ dbox hlt]
  exact (sortByScore_perm data).subset (List.get_mem _ _ _)

theorem acceptedBoxes_pairwise_iou (data : List Box) (t : ℚ) :
    (acceptedBoxes data t).Pairwise fun a b => get_iou a b ≤ t := by
  rw [acceptedBoxes, List.pairwise_map]
  exact nmsLoop_pairwise_iou _ t _ _

theorem acceptedBoxes_score_desc (data : List Box) (t : ℚ) :
    (acceptedBoxes data t).Pairwise fun a b => b.score ≤ a.score := by
  rw [acceptedBoxes]
  refine pairwise_map_getD ?_ (acceptedBoxes_index_bound data t) ?_
  · exact sortByScore_sorted data
  · exact nmsLoop_pairwise_gt _ t _ _ (List.pairwise_lt_range _)

theorem acceptedBoxes_score_strict_desc (data : List Box) (t : ℚ)
    (hnd : (data.map Box.score).Nodup) :
    (acceptedBoxes data t).Pairwise fun a b => b.score < a.score := by
  have hperm : List.Perm ((sortByScore data).map Box.score) (data.map Box.score) :=
    (sortByScore_perm data).map Box.score
  have hnd2 : ((sortByScore data).map Box.score).Nodup := hperm.nodup_iff.mpr hnd
  have hne : (sortByScore data).Pairwise fun a b => a.score ≠ b.score :=
    List.pairwise_map.mp hnd2
  have hstrict : (sortByScore data).Pairwise fun a b => a.score < b.score :=
    ((sortByScore_sorted data).and hne).imp fun h => lt_of_le_of_ne h.1 h.2
  rw [acceptedBoxes]
  refine pairwise_map_getD hstrict (acceptedBoxes_index_bound data t) ?_
  exact nmsLoop_pairwise_gt _ t _ _ (List.pairwise_lt_range _)

theorem acceptedBoxes_fixed (data : List Box) (t : ℚ)
    (hdesc : data.Pairwise fun a b => b.score < a.score)
    (hiou : data.Pairwise fun a b => get_iou a b ≤ t) :
    acceptedBoxes data t = data := by
  have hsort : sortByScore data = data.reverse := sortByScore_of_strict_desc data hdesc
  have hrev1 : data.reverse.Pairwise fun a b => get_iou a b ≤ t :=
    List.pairwise_reverse.mpr (hiou.imp fun h => by rw [get_iou_comm]; exact h)
  have hrev2 : data.reverse.Pairwise fun a b => get_iou b a ≤ t :=
    List.pairwise_reverse.mpr hiou
  have hidx : ∀ i ∈ List.range data.reverse.length, ∀ j ∈ List.range data.reverse.length,
      i ≠ j → get_iou (data.reverse.getD i dbox) (data.reverse.getD j dbox) ≤ t := by
    intro i hi j hj hne
    rw [List.mem_range] at hi hj
    rw [List.getD_eq_get _ dbox hi, List.getD_eq_get _ dbox hj]
    rcases Nat.lt_or_ge i j with hij | hij
    · exact List.pairwise_iff_get.mp hrev1 ⟨i, hi⟩ ⟨j, hj⟩ hij
    · have hji : j < i := lt_of_le_of_ne hij (Ne.symm hne)
      exact List.pairwise_iff_get.mp hrev2 ⟨j, hj⟩ ⟨i, hi⟩ hji
  rw [acceptedBoxes, hsort,
    nmsLoop_eq_reverse data.reverse t _ _ (List.nodup_range _) hidx
      (by rw [List.length_range]),
    List.map_reverse, map_getD_range, List.reverse_reverse]

/-! Helper lemmas about suppress. -/

theorem suppress_eq_map (X : List Raw) (t : ℚ) :
    suppress X t = (acceptedBoxes (X.map toCorner) t).map toRaw :=
  compute_nms_eq_map (X.map toCorner) t

theorem map_toCorner_suppress (X : List Raw) (t : ℚ) :
    (suppress X t).map toCorner = acceptedBoxes (X.map toCorner) t := by
  rw [suppress_eq_map, List.map_map]
  have h : toCorner ∘ toRaw = id := funext toCorner_toRaw
  rw [h, List.map_id]

theorem suppress_mem (X : List Raw) (t : ℚ) : ∀ r ∈ suppress X t, r ∈ X := by
  intro r hr
  rw [suppress_eq_map, List.mem_map] at hr
  obtain ⟨b, hb, rfl⟩ := hr
  have hmem := acceptedBoxes_mem _ t b hb
  rw [List.mem_map] at hmem
  obtain ⟨r0, hr0, rfl⟩ := hmem
  rw [toRaw_toCorner]
  exact hr0

theorem suppress_pairwise_iou (X : List Raw) (t : ℚ) :
    (suppress X t).Pairwise fun r1 r2 => get_iou (toCorner r1) (toCorner r2) ≤ t := by
  have h2 : ((suppress X t).map toCorner).Pairwise fun a b => get_iou a b ≤ t := by
    rw [map_toCorner_suppress]
    exact acceptedBoxes_pairwise_iou (X.map toCorner) t
  exact List.pairwise_map.mp h2

theorem suppress_score_desc (X : List Raw) (t : ℚ) :
    (suppress X t).Pairwise fun r1 r2 => r2.score ≤ r1.score := by
  rw [suppress_eq_map]
  exact List.pairwise_map.mpr (acceptedBoxes_score_desc (X.map toCorner) t)

theorem map_score_toCorner (X : List Raw) :
    (X.map toCorner).map Box.score = X.map Raw.score := by
  rw [List.map_map]
  rfl

theorem suppress_score_strict_desc (X : List Raw) (t : ℚ)
    (hnd : (X.map Raw.score).Nodup) :
    (suppress X t).Pairwise fun r1 r2 => r2.score < r1.score := by
  have hnd2 : ((X.map toCorner).map Box.score).Nodup := by
    rw [map_score_toCorner]
    exact hnd
  rw [suppress_eq_map]
  exact List.pairwise_map.mpr (acceptedBoxes_score_strict_desc (X.map toCorner) t hnd2)

theorem suppress_idem (X : List Raw) (t : ℚ) (hnd : (X.map Raw.score).Nodup) :
    suppress (suppress X t) t = suppress X t := by
  have hnd2 : ((X.map toCorner).map Box.score).Nodup := by
    rw [map_score_toCorner]
    exact hnd
  have hfix : acceptedBoxes (acceptedBoxes (X.map toCorner) t) t =
      acceptedBoxes (X.map toCorner) t :=
    acceptedBoxes_fixed _ t (acceptedBoxes_score_strict_desc (X.map toCorner) t hnd2)
      (acceptedBoxes_pairwise_iou (X.map toCorner) t)
  rw [suppress, map_toCorner_suppress, compute_nms_eq_map, hfix, ← suppress_eq_map]

theorem pairwise_iou_getD (l : List Box) (t : ℚ)
    (h : l.Pairwise fun a b => get_iou a b ≤ t) :
    ∀ i ∈ List.range l.length, ∀ j ∈ List.range l.length, i ≠ j →
      get_iou (l.getD i dbox) (l.getD j dbox) ≤ t := by
  have hflip : l.Pairwise fun a b => get_iou b a ≤ t :=
    h.imp fun hab => by rw [get_iou_comm]; exact hab
  intro i hi j hj hne
  rw [List.mem_range] at hi hj
  rw [List.getD_eq_get _ dbox hi, List.getD_eq_get _ dbox hj]
  rcases Nat.lt_or_ge i j with hij | hij
  · exact List.pairwise_iff_get.mp h ⟨i, hi⟩ ⟨j, hj⟩ hij
  · have hji : j < i := lt_of_le_of_ne hij (Ne.symm hne)
    exact List.pairwise_iff_get.mp hflip ⟨j, hj⟩ ⟨i, hi⟩ hji

theorem suppress_of_nonoverlapping (X : List Raw) (t : ℚ)
    (h : X.Pairwise fun r1 r2 => get_iou (toCorner r1) (toCorner r2) ≤ t) :
    suppress X t = ((sortByScore (X.map toCorner)).reverse).map toRaw := by
  have hbox : (X.map toCorner).Pairwise fun a b => get_iou a b ≤ t :=
    List.pairwise_map.mpr h
  have hsorted : (sortByScore (X.map toCorner)).Pairwise fun a b => get_iou a b ≤ t :=
    ((sortByScore_perm (X.map toCorner)).pairwise_iff
      fun hab => by rw [get_iou_comm]; exact hab).mpr hbox
  rw [suppress_eq_map, acceptedBoxes,
    nmsLoop_eq_reverse _ t _ _ (List.nodup_range _) (pairwise_iou_getD _ t hsorted)
      (List.length_range _).le,
    List.map_reverse, map_getD_range]

/-! Claim theorems. -/

/-- C1: the claim (and the spec) say a record with a negative x, such as
(-1, 0, 10, 10, 0.5), is dropped whole at ingestion.  The code does not do
this: the `continue` on line 56 skips only the offending field, so get_data
appends a truncated 4-entry row (the score 0.5 shifted into the height slot,
which then receives the y offset, giving 10.5) instead of dropping the
record or returning the empty collection. -/
theorem c1_invalid_record_not_dropped :
    get_data [[-1, 0, 10, 10, 1/2]] = some [[0, 10, 10, 21/2]] ∧
      get_data [[-1, 0, 10, 10, 1/2]] ≠ some [] :=
  ⟨by with_unfolding_all rfl, by with_unfolding_all decide⟩

/-- C2: suppression is strict: when the IoU of two boxes equals the
threshold exactly, neither suppresses the other, so on a two-box input
both boxes survive. -/
theorem c2_exact_threshold_both_survive (r1 r2 : Raw) (t : ℚ)
    (h : get_iou (toCorner r1) (toCorner r2) = t) :
    (suppress [r1, r2] t).length = 2 ∧
      r1 ∈ suppress [r1, r2] t ∧ r2 ∈ suppress [r1, r2] t := by
  have hpw : ([r1, r2] : List Raw).Pairwise fun a b =>
      get_iou (toCorner a) (toCorner b) ≤ t := by
    refine List.pairwise_cons.mpr ⟨?_, List.pairwise_singleton _ _⟩
    intro r hr
    rw [List.mem_singleton] at hr
    subst hr
    exact h.le
  have he := suppress_of_nonoverlapping [r1, r2] t hpw
  refine ⟨?_, ?_, ?_⟩
  · rw [he, List.length_map, List.length_reverse, sortByScore_length, List.length_map]
    rfl
  · rw [he]
    refine List.mem_map.mpr ⟨toCorner r1, ?_, toRaw_toCorner r1⟩
    rw [List.mem_reverse]
    exact (sortByScore_perm _).mem_iff.mpr (by simp)
  · rw [he]
    refine List.mem_map.mpr ⟨toCorner r2, ?_, toRaw_toCorner r2⟩
    rw [List.mem_reverse]
    exact (sortByScore_perm _).mem_iff.mpr (by simp)

/-- Witness for C2: two concrete boxes whose IoU is exactly the threshold
5000000/15000001 (the exact value of 50/(150 + 1e-5)) both survive. -/
theorem c2_witness :
    (suppress [⟨0,0,10,10,9/10⟩, ⟨0,5,10,10,8/10⟩] (5000000/15000001)).length = 2 ∧
      (⟨0,0,10,10,9/10⟩ : Raw) ∈
        suppress [⟨0,0,10,10,9/10⟩, ⟨0,5,10,10,8/10⟩] (5000000/15000001) ∧
      (⟨0,5,10,10,8/10⟩ : Raw) ∈
        suppress [⟨0,0,10,10,9/10⟩, ⟨0,5,10,10,8/10⟩] (5000000/15000001) :=
  c2_exact_threshold_both_survive _ _ _ (by with_unfolding_all rfl)

/-- C3: the suppression result lists the surviving boxes in acceptance
order, highest confidence first: the score sequence of the output is
non-increasing. -/
theorem c3_output_scores_nonincreasing (X : List Raw) (t : ℚ) :
    (suppress X t).Pairwise fun r1 r2 => r2.score ≤ r1.score :=
  suppress_score_desc X t

/-- C4 as stated is false on the code: for the concrete four-box collection
below, the lower threshold 1/10 returns three boxes while the higher
threshold 7/20 returns only two, so the survivor count is not monotone in
the threshold. -/
theorem c4_counterexample :
    (1/10 : ℚ) < 7/20 ∧
      (suppress [⟨0,0,30,13,9/10⟩, ⟨0,10,30,10,8/10⟩, ⟨0,10,12,10,7/10⟩,
          ⟨18,10,12,10,6/10⟩] (7/20)).length <
        (suppress [⟨0,0,30,13,9/10⟩, ⟨0,10,30,10,8/10⟩, ⟨0,10,12,10,7/10⟩,
          ⟨18,10,12,10,6/10⟩] (1/10)).length := by
  with_unfolding_all decide

/-- C4 amended: monotonicity does hold for each single elimination round:
for t1 ≤ t2 the indices kept by a round at threshold t1 form a sublist of
those kept at t2, so a looser threshold never suppresses more boxes within
a round (the global survivor count is still not monotone, see the
counterexample). -/
theorem c4_amended_per_round_monotone (data : List Box) (t1 t2 : ℚ) (h : t1 ≤ t2)
    (best : ℕ) (rest : List ℕ) :
    List.Sublist (keepStep data t1 best rest) (keepStep data t2 best rest) ∧
      (keepStep data t1 best rest).length ≤ (keepStep data t2 best rest).length := by
  have hsub : List.Sublist (keepStep data t1 best rest) (keepStep data t2 best rest) := by
    refine List.monotone_filter_right rest ?_
    intro i hpi
    exact decide_eq_true (le_trans (of_decide_eq_true hpi) h)
  exact ⟨hsub, hsub.length_le⟩

/-- Witness for the amended C4 at a concrete round. -/
theorem c4_amended_witness :
    List.Sublist (keepStep [dbox] (1/10) 0 [0]) (keepStep [dbox] (7/20) 0 [0]) ∧
      (keepStep [dbox] (1/10) 0 [0]).length ≤ (keepStep [dbox] (7/20) 0 [0]).length :=
  c4_amended_per_round_monotone [dbox] (1/10) (7/20) (by norm_num) 0 [0]

/-- C5 as stated is false on the code: two disjoint boxes with equal
scores survive in reversed order on each pass (the stable ascending sort
keeps their relative order and the loop accepts from the back), so
re-suppressing the result does not reproduce it. -/
theorem c5_counterexample :
    suppress (suppress [⟨0,0,1,1,1/2⟩, ⟨5,5,1,1,1/2⟩] (1/2)) (1/2) ≠
      suppress [⟨0,0,1,1,1/2⟩, ⟨5,5,1,1,1/2⟩] (1/2) := by
  with_unfolding_all decide

/-- C5 amended: for every input, no pair of surviving boxes has IoU above
the threshold; and when the scores of the input boxes are pairwise
distinct, re-suppression is the identity on the result. -/
theorem c5_amended_idempotent_distinct_scores (X : List Raw) (t : ℚ) :
    ((X.map Raw.score).Nodup → suppress (suppress X t) t = suppress X t) ∧
      (suppress X t).Pairwise fun r1 r2 => get_iou (toCorner r1) (toCorner r2) ≤ t :=
  ⟨fun hnd => suppress_idem X t hnd, suppress_pairwise_iou X t⟩

/-- Witness for the amended C5 on two boxes with distinct scores. -/
theorem c5_amended_witness :
    suppress (suppress [⟨0,0,1,1,1/2⟩, ⟨5,5,1,1,3/4⟩] (1/2)) (1/2) =
        suppress [⟨0,0,1,1,1/2⟩, ⟨5,5,1,1,3/4⟩] (1/2) ∧
      (suppress [⟨0,0,1,1,1/2⟩, ⟨5,5,1,1,3/4⟩] (1/2)).Pairwise fun r1 r2 =>
        get_iou (toCorner r1) (toCorner r2) ≤ 1/2 :=
  ⟨(c5_amended_idempotent_distinct_scores [⟨0,0,1,1,1/2⟩, ⟨5,5,1,1,3/4⟩] (1/2)).1
      (by with_unfolding_all decide),
    (c5_amended_idempotent_distinct_scores [⟨0,0,1,1,1/2⟩, ⟨5,5,1,1,3/4⟩] (1/2)).2⟩

/-- C6: when the intersection width or the intersection height is
negative, get_iou returns 0 from the early branch, before any area or
division is computed. -/
theorem c6_disjoint_boxes_zero_iou (b1 b2 : Box)
    (h : min b1.x2 b2.x2 - max b1.x1 b2.x1 < 0 ∨ min b1.y2 b2.y2 - max b1.y1 b2.y1 < 0) :
    get_iou b1 b2 = 0 := by
  simp only [get_iou]
  rw [if_pos h]

/-- Witness for C6 on two concrete disjoint boxes. -/
theorem c6_witness :
    (min (1:ℚ) 6 - max 0 5 < 0 ∨ min (1:ℚ) 6 - max 0 5 < 0) ∧
      get_iou ⟨0,0,1,1,1⟩ ⟨5,5,6,6,1⟩ = 0 :=
  ⟨Or.inl (by norm_num), c6_disjoint_boxes_zero_iou _ _ (Or.inl (by norm_num))⟩

/-- C7: for intersecting boxes get_iou is exactly
area_intersect / (area_b1 + area_b2 - area_intersect + 1e-5), and the
added epsilon makes the denominator nonzero even when the union area is
exactly zero. -/
theorem c7_epsilon_denominator (b1 b2 : Box)
    (hw : 0 ≤ min b1.x2 b2.x2 - max b1.x1 b2.x1)
    (hh : 0 ≤ min b1.y2 b2.y2 - max b1.y1 b2.y1) :
    get_iou b1 b2 =
      ((min b1.x2 b2.x2 - max b1.x1 b2.x1) * (min b1.y2 b2.y2 - max b1.y1 b2.y1)) /
        ((b1.x2 - b1.x1) * (b1.y2 - b1.y1) + (b2.x2 - b2.x1) * (b2.y2 - b2.y1) -
          (min b1.x2 b2.x2 - max b1.x1 b2.x1) * (min b1.y2 b2.y2 - max b1.y1 b2.y1) +
          1 / 100000) ∧
      ((b1.x2 - b1.x1) * (b1.y2 - b1.y1) + (b2.x2 - b2.x1) * (b2.y2 - b2.y1) -
          (min b1.x2 b2.x2 - max b1.x1 b2.x1) * (min b1.y2 b2.y2 - max b1.y1 b2.y1) = 0 →
        (b1.x2 - b1.x1) * (b1.y2 - b1.y1) + (b2.x2 - b2.x1) * (b2.y2 - b2.y1) -
          (min b1.x2 b2.x2 - max b1.x1 b2.x1) * (min b1.y2 b2.y2 - max b1.y1 b2.y1) +
          1 / 100000 ≠ 0) := by
  constructor
  · simp only [get_iou]
    rw [if_neg]
    push_neg
    exact ⟨hw, hh⟩
  · intro h0
    rw [h0]
    norm_num

/-- Witness for C7 on two identical unit boxes. -/
theorem c7_witness :
    get_iou ⟨0,0,1,1,1⟩ ⟨0,0,1,1,1⟩ =
      ((min (1:ℚ) 1 - max 0 0) * (min (1:ℚ) 1 - max 0 0)) /
        (((1:ℚ) - 0) * (1 - 0) + ((1:ℚ) - 0) * (1 - 0) -
          (min (1:ℚ) 1 - max 0 0) * (min (1:ℚ) 1 - max 0 0) + 1 / 100000) :=
  (c7_epsilon_denominator ⟨0,0,1,1,1⟩ ⟨0,0,1,1,1⟩ (by norm_num) (by norm_num)).1

/-- C8: the ingestion conversion to corner form and the output conversion
back to width/height form cancel exactly over the rationals (in particular
for integer-valued records); a fully valid record passes processLine
unchanged up to the corner conversion; and every surviving output record
of suppress is literally one of the input records. -/
theorem c8_roundtrip_exact :
    (∀ r : Raw, toRaw (toCorner r) = r) ∧
      (∀ x y w h s : ℚ, 0 ≤ x → 0 ≤ y → 0 < w → 0 < h → 0 ≤ s → s ≤ 1 →
        processLine [x, y, w, h, s] = some [x, y, x + w, y + h, s]) ∧
      ∀ (X : List Raw) (t : ℚ), ∀ r ∈ suppress X t, r ∈ X := by
  refine ⟨toRaw_toCorner, ?_, suppress_mem⟩
  intro x y w h s hx hy hw hh hs hs1
  have hcl : cleanLine [x, y, w, h, s] = [x, y, w, h, s] := by
    simp [cleanLine, List.enum, List.enumFrom, badField, not_lt.mpr hx, not_lt.mpr hy,
      not_lt.mpr hw.le, not_le.mpr hw, not_lt.mpr hh.le, not_le.mpr hh,
      not_lt.mpr hs, not_lt.mpr hs1]
  simp only [processLine, hcl]
  rw [if_pos (by norm_num : 4 ≤ ([x, y, w, h, s] : List ℚ).length)]
  show some [x, y, w + x, h + y, s] = some [x, y, x + w, y + h, s]
  rw [add_comm w x, add_comm h y]

/-- Witness for C8 at a concrete record. -/
theorem c8_witness :
    toRaw (toCorner ⟨1,2,3,4,1/2⟩) = ⟨1,2,3,4,1/2⟩ ∧
      processLine [1, 2, 3, 4, 1/2] = some [1, 2, 1 + 3, 2 + 4, 1/2] ∧
      ((⟨1,2,3,4,1/2⟩ : Raw) ∈ suppress [⟨1,2,3,4,1/2⟩] (1/2) ∧
        (⟨1,2,3,4,1/2⟩ : Raw) ∈ [(⟨1,2,3,4,1/2⟩ : Raw)]) :=
  ⟨c8_roundtrip_exact.1 _,
    c8_roundtrip_exact.2.1 1 2 3 4 (1/2) (by norm_num) (by norm_num) (by norm_num)
      (by norm_num) (by norm_num) (by norm_num),
    by with_unfolding_all decide,
    c8_roundtrip_exact.2.2 [⟨1,2,3,4,1/2⟩] (1/2) _ (by with_unfolding_all decide)⟩

/-- C9: on the empty collection compute_nms (and the full suppress
pipeline) returns the empty result instead of failing. -/
theorem c9_empty_input (t : ℚ) : compute_nms [] t = [] ∧ suppress [] t = [] :=
  ⟨rfl, rfl⟩

/-- C10: compute_nms is a function of its input, so two runs on the same
input agree; and the confidence sort is stable: the boxes of any given
score appear in the sorted sequence in exactly their input order, so equal
scores are tie-broken by input position. -/
theorem c10_deterministic_stable_sort :
    (∀ (X : List Raw) (t : ℚ), suppress X t = suppress X t) ∧
      ∀ (l : List Box) (s : ℚ),
        ((sortByScore l).filter fun b => decide (b.score = s)) =
          l.filter fun b => decide (b.score = s) :=
  ⟨fun _ _ => rfl, sortByScore_filter_score⟩

end NMS
